import Mathlib

/-!
Verification of the chord finder program (chord_finder.py).

The Python source is shallowly embedded as Lean definitions:

* Python lists of integers become `List Int`.
* Python dicts become association lists (`List (key × value)`) kept in
  insertion order, except the pitch dictionary consumed by the chord
  search, which is modeled by its (total) lookup function `Int → String`.
* Code that can raise an exception (the defensive guards in
  `reset_octave`, dictionary lookups by possibly-missing keys) returns
  `Option`, with `none` for the raised exception.
* A Python list comprehension whose body may raise is modeled by the
  combinator `optList`; an imperative accumulating loop whose body may
  raise is modeled by `optFoldl`.
-/

namespace ChordFinder

/-- Sequence a Python list comprehension whose element expression may raise:
the comprehension produces the list of values, or fails as soon as one
element fails. -/
def optList {α β : Type} (f : α → Option β) : List α → Option (List β)
  | [] => some []
  | a :: as =>
    match f a, optList f as with
    | some b, some bs => some (b :: bs)
    | _, _ => none

/-- Left fold whose step may raise, modeling an imperative loop that
updates an accumulator and may throw. -/
def optFoldl {α β : Type} (f : β → α → Option β) (init : β) : List α → Option β
  | [] => some init
  | a :: as =>
    match f init a with
    | some b => optFoldl f b as
    | none => none

/-- First while loop of `reset_octave`: while the value is negative, add 12;
the source raises (here: `none`) if the adjusted value overshoots past 11. -/
def resetOctaveUp (num : Int) : Option Int :=
  if num < 0 then
    if num + 12 > 11 then none
    else resetOctaveUp (num + 12)
  else some num
termination_by (-num).toNat
decreasing_by simp_wf; omega

/-- Second while loop of `reset_octave`: while the value exceeds 11,
subtract 12; the source raises (here: `none`) if the adjusted value
overshoots below 0. -/
def resetOctaveDown (num : Int) : Option Int :=
  if num > 11 then
    if num - 12 < 0 then none
    else resetOctaveDown (num - 12)
  else some num
termination_by num.toNat
decreasing_by simp_wf; omega

/-- `reset_octave` from chord_finder.py: run the two adjustment loops in
sequence. -/
def reset_octave (num : Int) : Option Int :=
  (resetOctaveUp num).bind resetOctaveDown

theorem resetOctaveUp_eq (num : Int) :
    resetOctaveUp num = some (if num < 0 then num % 12 else num) := by
  induction num using resetOctaveUp.induct with
  | case1 n h1 h2 => omega
  | case2 n h1 h2 ih =>
    rw [resetOctaveUp]
    simp only [if_pos h1, if_neg h2, ih]
    congr 1
    split <;> omega
  | case3 n h1 =>
    rw [resetOctaveUp]
    simp [h1]

theorem resetOctaveDown_eq (num : Int) :
    resetOctaveDown num = some (if 0 ≤ num then num % 12 else num) := by
  induction num using resetOctaveDown.induct with
  | case1 n h1 h2 => omega
  | case2 n h1 h2 ih =>
    rw [resetOctaveDown]
    simp only [if_pos h1, if_neg h2, ih]
    congr 1
    split <;> omega
  | case3 n h1 =>
    rw [resetOctaveDown]
    simp only [if_neg h1]
    congr 1
    split <;> omega

/-- The two loops of `reset_octave` never hit the defensive guards and
compute exactly the euclidean remainder modulo 12. -/
theorem reset_octave_eq (num : Int) : reset_octave num = some (num % 12) := by
  rw [reset_octave, resetOctaveUp_eq]
  split
  · show resetOctaveDown (num % 12) = some (num % 12)
    rw [resetOctaveDown_eq]
    have h0 : 0 ≤ num % 12 := by omega
    simp only [if_pos h0]
    congr 1
    omega
  · show resetOctaveDown num = some (num % 12)
    rw [resetOctaveDown_eq]
    simp only [Option.some.injEq]
    split <;> omega

/-- Claim C3: for every integer n, `reset_octave n` succeeds with a value
in the closed range [0, 11] that is congruent to n modulo 12; moreover
`reset_octave 13 = 1`, `reset_octave (-1) = 11` and `reset_octave 0 = 0`. -/
theorem reset_octave_range_mod_cases :
    (∀ n : Int, ∃ r : Int, reset_octave n = some r ∧
      0 ≤ r ∧ r ≤ 11 ∧ r % 12 = n % 12) ∧
    reset_octave 13 = some 1 ∧ reset_octave (-1) = some 11 ∧
    reset_octave 0 = some 0 := by
  refine ⟨fun n => ⟨n % 12, reset_octave_eq n, by omega, by omega, by omega⟩,
    ?_, ?_, ?_⟩ <;> rw [reset_octave_eq] <;> norm_num

/-- Claim C9: `reset_octave` terminates normally on every integer input:
both adjustment loops reach the range [0, 11] after finitely many steps
(the function is total by well-founded recursion on the distance to the
range) and the defensive guards never fire, so the result is always
`some` value. -/
theorem reset_octave_terminates : ∀ n : Int, (reset_octave n).isSome = true := by
  intro n
  rw [reset_octave_eq]
  rfl

/-- The chromatic pitch names in sharp spelling, from the source line
`pitch_names = 'C C# D D# E F F# G G# A A# B'.split(' ')`. -/
def sharpNames : List String :=
  ["C", "C#", "D", "D#", "E", "F"] ++ ["F#", "G", "G#", "A", "A#", "B"]

/-- The chromatic pitch names in flat spelling, from the source line
`pitch_names = 'C Db D Eb E F Gb G Ab A Bb B'.split(' ')`. -/
def flatNames : List String :=
  ["C", "Db", "D", "Eb", "E", "F", "Gb", "G", "Ab", "A", "Bb", "B"]

/-- The sharped-flag adjustment at the top of `generate_pitch_names`:
a flat marker in the starting pitch forces flat spelling. -/
def resolveSharped (starting_pitch : String) (sharped : Bool) : Bool :=
  if starting_pitch.data.contains 'b' && sharped then false else sharped

/-- The pitch-name list selected by the resolved sharped flag. -/
def pitchNameList (sharped : Bool) : List String :=
  if sharped then sharpNames else flatNames

/-- The dictionary comprehension over `enumerate(pitch_names)` pairing
each name with its position, as an association list. -/
def indexPairs : List String → Int → List (String × Int)
  | [], _ => []
  | s :: rest, i => (s, i) :: indexPairs rest (i + 1)

/-- `generate_pitch_names` from chord_finder.py: pick the spelling, index
the names, look up the starting pitch and C (a missing starting pitch is
the KeyError of the source, modeled as `none`), then build the mapping
from `reset_octave(i - diff)` to the name at position i. -/
def generate_pitch_names (starting_pitch : String) (sharped : Bool := true) :
    Option (List (Int × String)) :=
  match
    List.lookup starting_pitch
      (indexPairs (pitchNameList (resolveSharped starting_pitch sharped)) 0),
    List.lookup "C"
      (indexPairs (pitchNameList (resolveSharped starting_pitch sharped)) 0)
  with
  | some spIdx, some cIdx =>
    optList
      (fun p => (reset_octave (p.2 - (spIdx - cIdx))).map (fun key => (key, p.1)))
      (indexPairs (pitchNameList (resolveSharped starting_pitch sharped)) 0)
  | _, _ => none

/-- `generate_pitch_names` with `reset_octave` replaced by its proven
value, the remainder modulo 12; used to evaluate the function on
concrete inputs (the original body recurses by well-founded recursion,
which the kernel cannot unfold). -/
def generate_pitch_names_red (starting_pitch : String) (sharped : Bool := true) :
    Option (List (Int × String)) :=
  match
    List.lookup starting_pitch
      (indexPairs (pitchNameList (resolveSharped starting_pitch sharped)) 0),
    List.lookup "C"
      (indexPairs (pitchNameList (resolveSharped starting_pitch sharped)) 0)
  with
  | some spIdx, some cIdx =>
    some
      ((indexPairs (pitchNameList (resolveSharped starting_pitch sharped)) 0).map
        (fun p => ((p.2 - (spIdx - cIdx)) % 12, p.1)))
  | _, _ => none

theorem optList_reset_map (d : Int) (l : List (String × Int)) :
    optList (fun p => (reset_octave (p.2 - d)).map (fun key => (key, p.1))) l
      = some (l.map (fun p => ((p.2 - d) % 12, p.1))) := by
  induction l with
  | nil => rfl
  | cons p t ih =>
    rw [optList, ih, reset_octave_eq]
    rfl

theorem generate_pitch_names_eq (sp : String) (b : Bool) :
    generate_pitch_names sp b = generate_pitch_names_red sp b := by
  unfold generate_pitch_names generate_pitch_names_red
  cases List.lookup sp (indexPairs (pitchNameList (resolveSharped sp b)) 0) <;>
    cases List.lookup "C" (indexPairs (pitchNameList (resolveSharped sp b)) 0) <;>
    simp [optList_reset_map]

/-- Claim C4: for a starting pitch present in the 12-name list of the
resolved spelling, `generate_pitch_names` succeeds with a mapping of
exactly 12 entries whose keys are precisely the indices 0 through 11,
whose 12 name values are pairwise distinct, and in which index 0 maps to
the requested starting pitch. -/
theorem generate_pitch_names_bijection (sp : String) (b : Bool)
    (h : sp ∈ pitchNameList (resolveSharped sp b)) :
    (generate_pitch_names sp b).isSome = true ∧
    ((generate_pitch_names sp b).getD []).length = 12 ∧
    (((generate_pitch_names sp b).getD []).map Prod.fst).Perm
      ((List.range 12).map (fun i => (i : Int))) ∧
    (((generate_pitch_names sp b).getD []).map Prod.snd).Nodup ∧
    List.lookup 0 ((generate_pitch_names sp b).getD []) = some sp := by
  simp only [generate_pitch_names_eq]
  cases b with
  | false =>
    have hb : resolveSharped sp false = false := by simp [resolveSharped]
    rw [hb] at h
    simp only [pitchNameList, Bool.false_eq_true, if_false] at h
    rw [flatNames] at h
    fin_cases h <;> decide
  | true =>
    by_cases hc : sp.data.contains 'b'
    · have hc2 : 'b' ∈ sp.data := by simpa using hc
      have hb : resolveSharped sp true = false := by simp [resolveSharped, hc2]
      rw [hb] at h
      simp only [pitchNameList, Bool.false_eq_true, if_false] at h
      rw [flatNames] at h
      fin_cases h <;> revert hc <;> decide
    · have hc2 : 'b' ∉ sp.data := by simpa using hc
      have hb : resolveSharped sp true = true := by simp [resolveSharped, hc2]
      rw [hb] at h
      simp only [pitchNameList, if_true] at h
      rw [sharpNames] at h
      fin_cases h <;> decide

/-- Witness for claim C4 at the concrete input of Scenario 2. -/
theorem generate_pitch_names_bijection_witness :
    (generate_pitch_names "D" false).isSome = true ∧
    ((generate_pitch_names "D" false).getD []).length = 12 ∧
    (((generate_pitch_names "D" false).getD []).map Prod.fst).Perm
      ((List.range 12).map (fun i => (i : Int))) ∧
    (((generate_pitch_names "D" false).getD []).map Prod.snd).Nodup ∧
    List.lookup 0 ((generate_pitch_names "D" false).getD []) = some "D" :=
  generate_pitch_names_bijection "D" false (by decide)

/-- Claim C7: a flat marker in the starting pitch forces flat spelling,
so the sharped preference is ignored for such pitches; and
`generate_pitch_names "D" false` maps index 1 to "Eb". -/
theorem flat_root_forces_flat_spelling (sp : String)
    (h : sp.data.contains 'b' = true) :
    generate_pitch_names sp true = generate_pitch_names sp false ∧
    (generate_pitch_names "D" false).isSome = true ∧
    List.lookup 1 ((generate_pitch_names "D" false).getD []) = some "Eb" := by
  refine ⟨?_, ?_, ?_⟩
  · have h2b : 'b' ∈ sp.data := by simpa using h
    have h1 : resolveSharped sp true = false := by simp [resolveSharped, h2b]
    have h2 : resolveSharped sp false = false := by simp [resolveSharped]
    unfold generate_pitch_names
    rw [h1, h2]
  · rw [generate_pitch_names_eq]
    decide
  · rw [generate_pitch_names_eq]
    decide

/-- Witness for claim C7 at the concrete flat pitch "Bb". -/
theorem flat_root_forces_flat_spelling_witness :
    generate_pitch_names "Bb" true = generate_pitch_names "Bb" false ∧
    (generate_pitch_names "D" false).isSome = true ∧
    List.lookup 1 ((generate_pitch_names "D" false).getD []) = some "Eb" :=
  flat_root_forces_flat_spelling "Bb" (by decide)

/-- `convert_seps` from chord_finder.py: prepend 0 to the list of
cumulative sums of the first i+1 separations, for i below the length. -/
def convert_seps (lst : List Int) : List Int :=
  0 :: (List.range lst.length).map (fun i => (lst.take (i + 1)).sum)

/-- Claim C5: `convert_seps` returns a list of length one more than its
input whose first element is 0 and whose element at position i+1 is the
sum of the first i+1 separations. -/
theorem convert_seps_cumulative (lst : List Int) :
    (convert_seps lst).length = lst.length + 1 ∧
    (convert_seps lst).headI = 0 ∧
    ∀ i : Nat, i < lst.length →
      (convert_seps lst)[i + 1]? = some ((lst.take (i + 1)).sum) := by
  refine ⟨by simp [convert_seps], rfl, fun i hi => ?_⟩
  simp [convert_seps, List.getElem?_range hi]

/-- Witness for claim C5 at the concrete input of Scenario 4. -/
theorem convert_seps_cumulative_witness :
    (convert_seps [1, 1, 1, 1])[0 + 1]? =
      some ((([1, 1, 1, 1] : List Int).take (0 + 1)).sum) :=
  (convert_seps_cumulative [1, 1, 1, 1]).2.2 0 (by decide)

/-- Padding of the pitch name to minimum width 2 performed by the format
string of `name_chord`. -/
def padTo2 (s : String) : String :=
  if s.length < 2 then s.pushn ' ' (2 - s.length) else s

/-- `name_chord` from chord_finder.py: the pitch name padded to width 2
followed by the chord name looked up by its interval tuple (a missing
tuple would be the KeyError of the source, modeled as `none`). The pitch
dictionary is modeled by its lookup function `Int → String`. -/
def name_chord (root : Int) (interval_tup : List Int) (pitch_dct : Int → String)
    (chord_intervals : List (List Int × String)) : Option String :=
  (List.lookup interval_tup chord_intervals).map
    (fun nm => padTo2 (pitch_dct root) ++ nm)

/-- Python dict assignment `dct[root] = v`: replace the value in place at
an existing key, otherwise append the new binding at the end. -/
def dictInsert (dct : List (Int × List String)) (key : Int) (val : List String) :
    List (Int × List String) :=
  match dct with
  | [] => [(key, val)]
  | (k, v) :: rest =>
    if k = key then (key, val) :: rest else (k, v) :: dictInsert rest key val

/-- The list comprehension `[reset_octave(root + x) in mode for x in it]`
inside `get_possible_chords`. -/
def chordMatchList (mode : List Int) (root : Int) (it : List Int) :
    Option (List Bool) :=
  optList (fun x => (reset_octave (root + x)).map (fun y => mode.contains y)) it

/-- The body of the inner loop of `get_possible_chords` over the chord
table: when every offset of the candidate shape lands in the mode, append
the formatted chord label to the accumulator. -/
def chordStep (mode : List Int) (root : Int) (pitch_dct : Int → String)
    (chord_intervals : List (List Int × String))
    (acc : List String) (kv : List Int × String) : Option (List String) :=
  (chordMatchList mode root kv.1).bind (fun bs =>
    if bs.all (fun b => b) then
      (name_chord root kv.1 pitch_dct chord_intervals).map (fun nm => acc ++ [nm])
    else some acc)

/-- The body of the outer loop of `get_possible_chords` over the mode:
reduce the root, collect the chords possible there, and record them in
the dictionary when at least one chord matched. -/
def rootStep (mode : List Int) (pitch_dct : Int → String)
    (chord_intervals : List (List Int × String))
    (dct : List (Int × List String)) (root0 : Int) :
    Option (List (Int × List String)) :=
  (reset_octave root0).bind (fun root =>
    (optFoldl (chordStep mode root pitch_dct chord_intervals) [] chord_intervals).map
      (fun possible_chords =>
        if possible_chords.isEmpty then dct
        else dictInsert dct root possible_chords))

/-- `get_possible_chords` from chord_finder.py: fold the outer loop over
the raw mode list starting from the empty dictionary. -/
def get_possible_chords (mode : List Int) (pitch_dct : Int → String)
    (chord_intervals : List (List Int × String)) :
    Option (List (Int × List String)) :=
  optFoldl (rootStep mode pitch_dct chord_intervals) [] mode

/-- The membership test of `get_possible_chords` with `reset_octave`
replaced by its proven value: every offset of the shape, transposed to
the root and reduced modulo 12, lies in the raw mode list. -/
def chord_matches (mode : List Int) (root : Int) (it : List Int) : Bool :=
  it.all (fun x => mode.contains ((root + x) % 12))

/-- The label produced by `name_chord` when the interval tuple is a key
of the chord table. -/
def chordLabel (root : Int) (it : List Int) (pitch_dct : Int → String)
    (chord_intervals : List (List Int × String)) : String :=
  padTo2 (pitch_dct root) ++ (List.lookup it chord_intervals).getD ""

/-- The labels collected at one (reduced) root, in chord-table order. -/
def possibleChords (mode : List Int) (root : Int) (pitch_dct : Int → String)
    (tbl : List (List Int × String)) : List String :=
  (tbl.filter (fun kv => chord_matches mode root kv.1)).map
    (fun kv => chordLabel root kv.1 pitch_dct tbl)

/-- The outer loop body with `reset_octave` replaced by its value. -/
def pureRootStep (mode : List Int) (pitch_dct : Int → String)
    (tbl : List (List Int × String))
    (dct : List (Int × List String)) (root0 : Int) : List (Int × List String) :=
  if (possibleChords mode (root0 % 12) pitch_dct tbl).isEmpty then dct
  else dictInsert dct (root0 % 12) (possibleChords mode (root0 % 12) pitch_dct tbl)

/-- The whole dictionary built by `get_possible_chords`, as a pure fold. -/
def chordsResult (mode : List Int) (pitch_dct : Int → String)
    (tbl : List (List Int × String)) : List (Int × List String) :=
  mode.foldl (pureRootStep mode pitch_dct tbl) []

theorem lookup_isSome_of_mem {α β : Type} [BEq α] [LawfulBEq α] {a : α} {b : β}
    {l : List (α × β)} (h : (a, b) ∈ l) : (List.lookup a l).isSome = true := by
  induction l with
  | nil => cases h
  | cons p t ih =>
    obtain ⟨k, v⟩ := p
    rcases List.mem_cons.mp h with heq | ht
    · cases heq
      simp [List.lookup]
    · by_cases hak : a = k
      · subst hak
        simp [List.lookup]
      · have hb : (a == k) = false := by simp [hak]
        simp [List.lookup, hb, ih ht]

theorem name_chord_eq (root : Int) (it : List Int) (pitch_dct : Int → String)
    (tbl : List (List Int × String)) (h : (List.lookup it tbl).isSome = true) :
    name_chord root it pitch_dct tbl = some (chordLabel root it pitch_dct tbl) := by
  obtain ⟨nm, hnm⟩ := Option.isSome_iff_exists.mp h
  rw [name_chord, chordLabel, hnm]
  rfl

theorem chordMatchList_eq (mode : List Int) (root : Int) (it : List Int) :
    chordMatchList mode root it
      = some (it.map (fun x => mode.contains ((root + x) % 12))) := by
  rw [chordMatchList]
  induction it with
  | nil => rfl
  | cons x t ih =>
    rw [optList, ih, reset_octave_eq]
    rfl

theorem all_map_id_eq (it : List Int) (g : Int → Bool) :
    (it.map g).all (fun b => b) = it.all g := by
  induction it with
  | nil => rfl
  | cons x t ih => simp [List.all_cons, ih]

theorem optFoldl_chordStep_eq (mode : List Int) (root : Int)
    (pitch_dct : Int → String) (tbl : List (List Int × String)) :
    ∀ (rest : List (List Int × String)) (acc : List String),
      (∀ kv ∈ rest, (List.lookup kv.1 tbl).isSome = true) →
      optFoldl (chordStep mode root pitch_dct tbl) acc rest
        = some (acc ++ (rest.filter (fun kv => chord_matches mode root kv.1)).map
            (fun kv => chordLabel root kv.1 pitch_dct tbl)) := by
  intro rest
  induction rest with
  | nil =>
    intro acc h
    simp [optFoldl]
  | cons kv t ih =>
    intro acc h
    rw [optFoldl, chordStep, chordMatchList_eq, Option.some_bind', all_map_id_eq]
    have hmm : (kv.1.all fun x => mode.contains ((root + x) % 12))
        = chord_matches mode root kv.1 := rfl
    rw [hmm]
    cases hm : chord_matches mode root kv.1 with
    | true =>
      rw [if_pos rfl,
        name_chord_eq root kv.1 pitch_dct tbl (h kv (List.mem_cons_self kv t)),
        Option.map_some']
      show optFoldl (chordStep mode root pitch_dct tbl)
        (acc ++ [chordLabel root kv.1 pitch_dct tbl]) t = _
      rw [ih (acc ++ [chordLabel root kv.1 pitch_dct tbl])
        (fun kv2 h2 => h kv2 (List.mem_cons_of_mem kv h2))]
      simp [List.filter_cons, hm, List.append_assoc]
    | false =>
      rw [if_neg (by simp [hm])]
      show optFoldl (chordStep mode root pitch_dct tbl) acc t = _
      rw [ih acc (fun kv2 h2 => h kv2 (List.mem_cons_of_mem kv h2))]
      simp [List.filter_cons, hm]

theorem optFoldl_rootStep_eq (mode : List Int) (pitch_dct : Int → String)
    (tbl : List (List Int × String)) :
    ∀ (ms : List Int) (dct : List (Int × List String)),
      optFoldl (rootStep mode pitch_dct tbl) dct ms
        = some (ms.foldl (pureRootStep mode pitch_dct tbl) dct) := by
  intro ms
  induction ms with
  | nil => intro dct; rfl
  | cons r t ih =>
    intro dct
    rw [optFoldl, rootStep, reset_octave_eq, Option.some_bind',
      optFoldl_chordStep_eq mode (r % 12) pitch_dct tbl tbl []
        (fun kv hkv => lookup_isSome_of_mem (l := tbl) (a := kv.1) (b := kv.2) hkv),
      Option.map_some']
    rw [List.nil_append]
    exact ih (pureRootStep mode pitch_dct tbl dct r)

/-- `get_possible_chords` never raises and computes `chordsResult`. -/
theorem get_possible_chords_eq (mode : List Int) (pitch_dct : Int → String)
    (tbl : List (List Int × String)) :
    get_possible_chords mode pitch_dct tbl = some (chordsResult mode pitch_dct tbl) :=
  optFoldl_rootStep_eq mode pitch_dct tbl mode []

theorem dictInsert_lookup (key : Int) (val : List String) (k : Int) :
    ∀ (d : List (Int × List String)),
      List.lookup k (dictInsert d key val)
        = if k = key then some val else List.lookup k d := by
  intro d
  induction d with
  | nil =>
    by_cases h : k = key
    · subst h
      simp [dictInsert]
    · have hb : (k == key) = false := by simp [h]
      simp [dictInsert, List.lookup_cons, hb, h]
  | cons p rest ih =>
    obtain ⟨a, b⟩ := p
    rw [dictInsert]
    by_cases hak : a = key
    · subst hak
      rw [if_pos rfl]
      by_cases hk : k = a
      · subst hk
        simp [List.lookup_cons]
      · have hb : (k == a) = false := by simp [hk]
        simp [List.lookup_cons, hb, hk]
    · rw [if_neg hak]
      by_cases hk : k = a
      · subst hk
        simp [List.lookup_cons, hak]
      · have hb : (k == a) = false := by simp [hk]
        simp [List.lookup_cons, hb, ih]

theorem foldl_pureRootStep_lookup (mode : List Int) (pitch_dct : Int → String)
    (tbl : List (List Int × String)) (k : Int) :
    ∀ (ms : List Int) (dct : List (Int × List String)),
      List.lookup k (ms.foldl (pureRootStep mode pitch_dct tbl) dct)
        = if (∃ r ∈ ms, r % 12 = k) ∧ possibleChords mode k pitch_dct tbl ≠ []
          then some (possibleChords mode k pitch_dct tbl)
          else List.lookup k dct := by
  intro ms
  induction ms with
  | nil =>
    intro dct
    simp
  | cons r t ih =>
    intro dct
    rw [List.foldl_cons, ih]
    by_cases hpc : possibleChords mode k pitch_dct tbl = []
    · rw [if_neg (fun hc => hc.2 hpc), if_neg (fun hc => hc.2 hpc), pureRootStep]
      by_cases hre : (possibleChords mode (r % 12) pitch_dct tbl).isEmpty
      · rw [if_pos hre]
      · rw [if_neg hre, dictInsert_lookup]
        have hne : ¬ k = r % 12 := by
          intro he
          rw [← he] at hre
          rw [hpc] at hre
          exact hre rfl
        rw [if_neg hne]
    · by_cases hrk : r % 12 = k
      · by_cases htail : ∃ r2 ∈ t, r2 % 12 = k
        · rw [if_pos ⟨htail, hpc⟩,
            if_pos ⟨⟨r, List.mem_cons_self r t, hrk⟩, hpc⟩]
        · rw [if_neg (fun hc => htail hc.1), pureRootStep, hrk,
            if_neg (by simp [hpc]), dictInsert_lookup, if_pos rfl,
            if_pos ⟨⟨r, List.mem_cons_self r t, hrk⟩, hpc⟩]
      · have hstep : List.lookup k (pureRootStep mode pitch_dct tbl dct r)
            = List.lookup k dct := by
          rw [pureRootStep]
          by_cases hre : (possibleChords mode (r % 12) pitch_dct tbl).isEmpty
          · rw [if_pos hre]
          · rw [if_neg hre, dictInsert_lookup, if_neg (fun he => hrk he.symm)]
        rw [hstep]
        by_cases htail : ∃ r2 ∈ t, r2 % 12 = k
        · obtain ⟨r2, hr2, hr2k⟩ := htail
          rw [if_pos ⟨⟨r2, hr2, hr2k⟩, hpc⟩,
            if_pos ⟨⟨r2, List.mem_cons_of_mem r hr2, hr2k⟩, hpc⟩]
        · rw [if_neg (fun hc => htail hc.1), if_neg ?_]
          rintro ⟨⟨r2, hm, he⟩, -⟩
          rcases List.mem_cons.mp hm with h1 | h2
          · exact hrk (h1 ▸ he)
          · exact htail ⟨r2, h2, he⟩

theorem chordsResult_lookup (mode : List Int) (pitch_dct : Int → String)
    (tbl : List (List Int × String)) (k : Int) :
    List.lookup k (chordsResult mode pitch_dct tbl)
      = if (∃ r ∈ mode, r % 12 = k) ∧ possibleChords mode k pitch_dct tbl ≠ []
        then some (possibleChords mode k pitch_dct tbl)
        else none := by
  rw [chordsResult, foldl_pureRootStep_lookup]
  rfl

/-- Claim C1: for every mode list, pitch mapping and chord table, and
every offset r of the mode, `get_possible_chords` succeeds, and a pair
(t, name) of the chord table is recorded under key `reset_octave r`
exactly when every offset x of t satisfies that
`reset_octave (reset_octave r + x)` is a member of the raw, unreduced
mode list; the entry under that key is precisely the list of labels of
the matching pairs, in table order, and is absent when no pair matches. -/
theorem get_possible_chords_records_iff (mode : List Int)
    (pitch_dct : Int → String) (tbl : List (List Int × String))
    (r : Int) (hr : r ∈ mode) :
    ∃ k dct, reset_octave r = some k ∧
      get_possible_chords mode pitch_dct tbl = some dct ∧
      (∀ t nm, (t, nm) ∈ tbl →
        ((t, nm) ∈ tbl.filter (fun kv => chord_matches mode k kv.1) ↔
          ∀ x ∈ t, ∃ y, reset_octave (k + x) = some y ∧ y ∈ mode)) ∧
      List.lookup k dct
        = if (tbl.filter (fun kv => chord_matches mode k kv.1)).isEmpty then none
          else some ((tbl.filter (fun kv => chord_matches mode k kv.1)).map
            (fun kv => chordLabel k kv.1 pitch_dct tbl)) := by
  refine ⟨r % 12, chordsResult mode pitch_dct tbl, reset_octave_eq r,
    get_possible_chords_eq mode pitch_dct tbl, ?_, ?_⟩
  · intro t nm ht
    rw [List.mem_filter]
    constructor
    · rintro ⟨-, hmatch⟩ x hx
      refine ⟨(r % 12 + x) % 12, reset_octave_eq _, ?_⟩
      have hc := List.all_eq_true.mp hmatch x hx
      simpa [List.contains, List.elem_iff] using hc
    · intro hall
      refine ⟨ht, List.all_eq_true.mpr fun x hx => ?_⟩
      obtain ⟨y, hy, hymem⟩ := hall x hx
      rw [reset_octave_eq] at hy
      have hyv : y = (r % 12 + x) % 12 := by
        injection hy.symm
      subst hyv
      simpa [List.contains, List.elem_iff] using hymem
  · rw [chordsResult_lookup]
    by_cases hf : tbl.filter (fun kv => chord_matches mode (r % 12) kv.1) = []
    · have hpcs : possibleChords mode (r % 12) pitch_dct tbl = [] := by
        rw [possibleChords, hf]
        rfl
      rw [if_neg (fun hc => hc.2 hpcs), if_pos (by simp [hf])]
    · have hpcs : possibleChords mode (r % 12) pitch_dct tbl ≠ [] := by
        rw [possibleChords]
        intro hmap
        exact hf (List.map_eq_nil_iff.mp hmap)
      rw [if_pos ⟨⟨r, hr, rfl⟩, hpcs⟩, if_neg (by simp [hf])]
      rfl

/-- Witness for claim C1: the major-triad shape over a C major triad
mode, tested at root offset 0. -/
theorem get_possible_chords_records_iff_witness :
    ∃ k dct, reset_octave 0 = some k ∧
      get_possible_chords [0, 4, 7] (fun _ => "C") [([4, 7], "M")] = some dct ∧
      (∀ t nm, (t, nm) ∈ ([([4, 7], "M")] : List (List Int × String)) →
        ((t, nm) ∈ ([([4, 7], "M")] : List (List Int × String)).filter
            (fun kv => chord_matches [0, 4, 7] k kv.1) ↔
          ∀ x ∈ t, ∃ y, reset_octave (k + x) = some y ∧ y ∈ ([0, 4, 7] : List Int))) ∧
      List.lookup k dct
        = if (([([4, 7], "M")] : List (List Int × String)).filter
              (fun kv => chord_matches [0, 4, 7] k kv.1)).isEmpty then none
          else some ((([([4, 7], "M")] : List (List Int × String)).filter
              (fun kv => chord_matches [0, 4, 7] k kv.1)).map
            (fun kv => chordLabel k kv.1 (fun _ => "C") [([4, 7], "M")])) :=
  get_possible_chords_records_iff [0, 4, 7] (fun _ => "C") [([4, 7], "M")] 0
    (by decide)

theorem dictInsert_all (key : Int) (val : List String)
    (hval : val.isEmpty = false) :
    ∀ (d : List (Int × List String)),
      d.all (fun kv => !kv.2.isEmpty) = true →
      (dictInsert d key val).all (fun kv => !kv.2.isEmpty) = true := by
  intro d
  induction d with
  | nil =>
    intro h
    simp [dictInsert, hval]
  | cons p rest ih =>
    obtain ⟨a, b⟩ := p
    intro h
    rw [dictInsert]
    simp only [List.all_cons, Bool.and_eq_true] at h
    by_cases hak : a = key
    · rw [if_pos hak]
      simp [List.all_cons, hval, h.2]
    · rw [if_neg hak]
      simp [List.all_cons, h.1, ih h.2]

/-- Claim C6: every key present in the result of `get_possible_chords`
maps to a non-empty list of labels; a root at which no chord shape
matches is omitted from the dictionary rather than recorded with an
empty list. -/
theorem get_possible_chords_no_empty_entry (mode : List Int)
    (pitch_dct : Int → String) (tbl : List (List Int × String)) :
    ∃ dct, get_possible_chords mode pitch_dct tbl = some dct ∧
      dct.all (fun kv => !kv.2.isEmpty) = true := by
  refine ⟨chordsResult mode pitch_dct tbl,
    get_possible_chords_eq mode pitch_dct tbl, ?_⟩
  rw [chordsResult]
  have H : ∀ (ms : List Int) (dct : List (Int × List String)),
      dct.all (fun kv => !kv.2.isEmpty) = true →
      (ms.foldl (pureRootStep mode pitch_dct tbl) dct).all
        (fun kv => !kv.2.isEmpty) = true := by
    intro ms
    induction ms with
    | nil => intro dct h; exact h
    | cons r t ih =>
      intro dct h
      rw [List.foldl_cons]
      apply ih
      rw [pureRootStep]
      by_cases hre : (possibleChords mode (r % 12) pitch_dct tbl).isEmpty
      · rw [if_pos hre]
        exact h
      · rw [if_neg hre]
        exact dictInsert_all (r % 12) _ (by simpa using hre) dct h
  exact H mode [] rfl

/-- Claim C10: if the chord table contains the empty offset tuple as a
key, then for every offset r of the mode the reduced key `reset_octave r`
is present in the result of `get_possible_chords` and its entry contains
the label of the empty-tuple chord, since the universal membership
condition holds vacuously at every root. -/
theorem empty_tuple_matches_every_root (mode : List Int)
    (pitch_dct : Int → String) (tbl : List (List Int × String)) (nm : String)
    (hnm : (([] : List Int), nm) ∈ tbl) (r : Int) (hr : r ∈ mode) :
    ∃ k dct v, reset_octave r = some k ∧
      get_possible_chords mode pitch_dct tbl = some dct ∧
      List.lookup k dct = some v ∧
      chordLabel k [] pitch_dct tbl ∈ v := by
  have hmem : (([] : List Int), nm)
      ∈ tbl.filter (fun kv => chord_matches mode (r % 12) kv.1) :=
    List.mem_filter.mpr ⟨hnm, rfl⟩
  have hlab : chordLabel (r % 12) [] pitch_dct tbl
      ∈ possibleChords mode (r % 12) pitch_dct tbl := by
    rw [possibleChords]
    exact List.mem_map.mpr ⟨([], nm), hmem, rfl⟩
  refine ⟨r % 12, chordsResult mode pitch_dct tbl,
    possibleChords mode (r % 12) pitch_dct tbl, reset_octave_eq r,
    get_possible_chords_eq mode pitch_dct tbl, ?_, hlab⟩
  rw [chordsResult_lookup]
  rw [if_pos ⟨⟨r, hr, rfl⟩, List.ne_nil_of_mem hlab⟩]

/-- Witness for claim C10: a one-entry table holding the empty tuple,
over a one-note mode. -/
theorem empty_tuple_matches_every_root_witness :
    ∃ k dct v, reset_octave 5 = some k ∧
      get_possible_chords [5] (fun _ => "F") [(([] : List Int), "root")]
        = some dct ∧
      List.lookup k dct = some v ∧
      chordLabel k [] (fun _ => "F") [(([] : List Int), "root")] ∈ v :=
  empty_tuple_matches_every_root [5] (fun _ => "F") [([], "root")] "root"
    (by decide) 5 (by decide)

/-- Allocation of the lookup of a name absent from the indexed
pitch-name pairs: it fails for every starting offset. -/
theorem lookup_indexPairs_none (sp : String) :
    ∀ (l : List String) (i : Int), sp ∉ l →
      List.lookup sp (indexPairs l i) = none := by
  intro l
  induction l with
  | nil =>
    intro i h
    rfl
  | cons a t ih =>
    intro i h
    rw [indexPairs]
    have hne : ¬ sp = a := fun he => h (he ▸ List.mem_cons_self a t)
    have hb : (sp == a) = false := by simp [hne]
    simp only [List.lookup_cons, hb]
    exact ih (i + 1) (fun hm => h (List.mem_cons_of_mem a hm))

/-- A starting pitch outside the 12-name list of the resolved spelling
makes `generate_pitch_names` raise (the KeyError of the source). -/
theorem generate_pitch_names_none (sp : String) (b : Bool)
    (h : sp ∉ pitchNameList (resolveSharped sp b)) :
    generate_pitch_names sp b = none := by
  rw [generate_pitch_names, lookup_indexPairs_none sp _ 0 h]

/-- `chord_finder` from chord_finder.py, parameterized by the two tables
the source parses from the config file; the printing of the resulting
dictionary is omitted, so the function returns the dictionary that would
be printed, or `none` where the source raises. -/
def chord_finder (pitch mode : String) (modes : List (String × List Int))
    (intervals : List (List Int × String)) : Option (List (Int × List String)) :=
  (generate_pitch_names pitch).bind (fun pitch_names =>
    (List.lookup mode modes).bind (fun mode_lst =>
      get_possible_chords mode_lst
        (fun i => (List.lookup i pitch_names).getD "") intervals))

/-- Claim C8: `chord_finder` fails with an invalid-input error, printing
no matches, whenever the requested root pitch is not among the 12 names
of the resolved spelling or the requested mode name is absent from the
mode table of the config. -/
theorem chord_finder_invalid_input_fails (pitch mode : String)
    (modes : List (String × List Int)) (intervals : List (List Int × String))
    (h : pitch ∉ pitchNameList (resolveSharped pitch true) ∨
      List.lookup mode modes = none) :
    chord_finder pitch mode modes intervals = none := by
  rcases h with h | h
  · rw [chord_finder, generate_pitch_names_none pitch true h]
    rfl
  · rw [chord_finder]
    cases hg : generate_pitch_names pitch with
    | none => rfl
    | some pn =>
      rw [Option.some_bind', h]
      rfl

/-- Witness for claim C8: the pitch name H is in neither spelling. -/
theorem chord_finder_invalid_input_fails_witness :
    chord_finder "H" "ionian" [("ionian", [0, 2, 4])] [([4, 7], "M")] = none :=
  chord_finder_invalid_input_fails "H" "ionian" [("ionian", [0, 2, 4])]
    [([4, 7], "M")] (Or.inl (by decide))

end ChordFinder
